import Mathlib

/-!
Verification of the agent-orchestration core of the `codebetter` extension
(capability registry, LLM gateway stream reassembly, tool-calling loop,
mode selection, and phase history) against its natural-language
specification.  Each definition is a shallow embedding of the
corresponding TypeScript source in `src/`; asynchronous effects
(network, subprocess spawn, JSON parsing) are passed in as explicit
`Except`-valued oracles.
-/

/-! ## Generic association-list helpers

JavaScript `Map` and plain-object spread both update an existing key in
place (keeping its original position) and append a brand-new key at the
end.  `lookupKey` finds the first binding; `upsert` models `map.set` /
`{ ...obj, [k]: v }`. -/

def lookupKey {κ α : Type} [DecidableEq κ] : List (κ × α) → κ → Option α
  | [], _ => none
  | (k, v) :: rest, key => if k = key then some v else lookupKey rest key

def upsert {κ α : Type} [DecidableEq κ] : List (κ × α) → κ → α → List (κ × α)
  | [], k, v => [(k, v)]
  | (k', v') :: rest, k, v =>
      if k' = k then (k', v) :: rest else (k', v') :: upsert rest k v

theorem lookupKey_upsert_self {κ α : Type} [DecidableEq κ]
    (m : List (κ × α)) (k : κ) (v : α) :
    lookupKey (upsert m k v) k = some v := by
  induction m with
  | nil => simp [upsert, lookupKey]
  | cons hd tl ih =>
      obtain ⟨k', v'⟩ := hd
      by_cases h : k' = k
      · simp [upsert, lookupKey, h]
      · simp [upsert, lookupKey, h, ih]

theorem upsert_of_lookup_none {κ α : Type} [DecidableEq κ]
    (m : List (κ × α)) (k : κ) (v : α) (h : lookupKey m k = none) :
    upsert m k v = m ++ [(k, v)] := by
  induction m with
  | nil => simp [upsert]
  | cons hd tl ih =>
      obtain ⟨k', v'⟩ := hd
      by_cases hk : k' = k
      · simp [lookupKey, hk] at h
      · simp [lookupKey, hk] at h
        simp [upsert, hk, ih h]

theorem lookupKey_append_of_none {κ α : Type} [DecidableEq κ]
    (m m' : List (κ × α)) (k : κ) (h : lookupKey m k = none) :
    lookupKey (m ++ m') k = lookupKey m' k := by
  induction m with
  | nil => simp
  | cons hd tl ih =>
      obtain ⟨k', v'⟩ := hd
      by_cases hk : k' = k
      · simp [lookupKey, hk] at h
      · simp [lookupKey, hk] at h ⊢
        exact ih h

theorem lookupKey_none_of_not_mem {κ α : Type} [DecidableEq κ]
    (m : List (κ × α)) (k : κ) (h : k ∉ m.map Prod.fst) :
    lookupKey m k = none := by
  induction m with
  | nil => rfl
  | cons hd tl ih =>
      obtain ⟨k', v'⟩ := hd
      rw [List.map_cons, List.mem_cons, not_or] at h
      simp only [lookupKey]
      rw [if_neg (fun he => h.1 he.symm)]
      exact ih h.2

/-! ## String helpers

`containsSub s pat` models the JavaScript `s.includes(pat)` substring
test; `concatAll` is plain left-to-right concatenation of a fragment
list. -/

def listPrefixOf : List Char → List Char → Bool
  | [], _ => true
  | _ :: _, [] => false
  | a :: as, b :: bs => a = b && listPrefixOf as bs

def listSub (pat : List Char) : List Char → Bool
  | [] => pat.isEmpty
  | b :: bs => listPrefixOf pat (b :: bs) || listSub pat bs

def containsSub (s pat : String) : Bool := listSub pat.data s.data

def concatAll : List String → String
  | [] => ""
  | s :: rest => s ++ concatAll rest

theorem String.append_right_cancel_of_eq (a b c : String) (h : a ++ c = b ++ c) :
    a = b := by
  have hd : a.data ++ c.data = b.data ++ c.data := by
    rw [← String.data_append, ← String.data_append, h]
  exact String.ext (List.append_cancel_right hd)

/-! ## A small JSON value model

Tool results and tool arguments travel as structured data that the
loop serializes with `JSON.stringify`.  The mutual inductive keeps the
object-field recursion structural.  `stringify` is the compact
(no-whitespace) form that `JSON.stringify` produces; string escaping is
not modeled (no claim depends on it). -/

mutual
inductive Json where
  | null : Json
  | bool (b : Bool) : Json
  | num (n : Nat) : Json
  | str (s : String) : Json
  | obj (fields : JsonFields) : Json
inductive JsonFields where
  | nil : JsonFields
  | cons (key : String) (value : Json) (rest : JsonFields) : JsonFields
end

mutual
def Json.stringify : Json → String
  | .null => "null"
  | .bool true => "true"
  | .bool false => "false"
  | .num n => toString n
  | .str s => "\"" ++ s ++ "\""
  | .obj fields => "\x7b" ++ JsonFields.stringifyFields fields ++ "\x7d"
def JsonFields.stringifyFields : JsonFields → String
  | .nil => ""
  | .cons key value .nil => "\"" ++ key ++ "\":" ++ Json.stringify value
  | .cons key value (.cons k2 v2 rest) =>
      "\"" ++ key ++ "\":" ++ Json.stringify value ++ ","
        ++ JsonFields.stringifyFields (.cons k2 v2 rest)
end

/-! ## Message / tool-call data model (src/core/llm/LLMClient.ts) -/

inductive Role where
  | system | user | assistant | tool
deriving DecidableEq, Repr

structure ToolCallFunction where
  name : String
  arguments : String
deriving DecidableEq, Repr

/-- `ToolCall` from LLMClient.ts (the `type: 'function'` tag is a fixed
literal in the source and is omitted). -/
structure ToolCall where
  id : String
  function : ToolCallFunction
deriving DecidableEq, Repr

structure ChatMessage where
  role : Role
  content : Option String
  tool_call_id : Option String
  tool_calls : Option (List ToolCall)
deriving DecidableEq, Repr

structure ChatResponse where
  content : Option String
  toolCalls : Option (List ToolCall)
  finishReason : String
deriving DecidableEq, Repr

/-! ## LLM gateway: non-streamed response mapping (LLMClient.chat)

The backend reply is modeled by the first choice's raw message; `chat`
copies each raw tool call through unchanged when its type tag is
"function", and degrades it to empty name/arguments otherwise, exactly
as the `map` in `LLMClient.chat` does. -/

structure RawFunction where
  name : String
  arguments : String
deriving DecidableEq, Repr

structure RawToolCall where
  id : String
  type : String
  function : RawFunction
deriving DecidableEq, Repr

structure RawMessage where
  content : Option String
  tool_calls : Option (List RawToolCall)
deriving DecidableEq, Repr

structure RawChoice where
  message : RawMessage
  finish_reason : Option String
deriving DecidableEq, Repr

def convertRawToolCall (tc : RawToolCall) : ToolCall :=
  if tc.type = "function" then
    { id := tc.id, function := { name := tc.function.name, arguments := tc.function.arguments } }
  else
    { id := tc.id, function := { name := "", arguments := "" } }

/-- JavaScript truthiness for an optional string: `undefined`, `null`
and `""` are falsy. -/
def strTruthy : Option String → Bool
  | none => false
  | some s => !s.isEmpty

def LLMClient.chatOfChoice (choice : RawChoice) : ChatResponse :=
  { content := choice.message.content,
    toolCalls := choice.message.tool_calls.map (List.map convertRawToolCall),
    finishReason :=
      match choice.finish_reason with
      | some s => if s.isEmpty then "stop" else s
      | none => "stop" }

/-! ## LLM gateway: streamed tool-call reassembly (LLMClient.chatStream)

Incoming chunks carry an optional content fragment, a list of indexed
tool-call delta fragments, and an optional finish reason.  The
accumulator is a `Map index -> ToolCall` modeled as an insertion-ordered
association list (`upsert`). -/

structure ToolCallDelta where
  index : Nat
  id : Option String
  fname : Option String
  farguments : Option String
deriving DecidableEq, Repr

structure StreamChunkIn where
  content : Option String
  tool_calls : List ToolCallDelta
  finish_reason : Option String
deriving DecidableEq, Repr

structure StreamEvent where
  content : Option String
  toolCalls : Option (List ToolCall)
  done : Bool
deriving DecidableEq, Repr

def emptyToolCall : ToolCall := { id := "", function := { name := "", arguments := "" } }

/-- One delta applied to an accumulator entry: adopt a (truthy) id,
adopt/replace a (truthy) name fragment, append a (truthy) argument
fragment. -/
def applyDelta (existing : ToolCall) (tc : ToolCallDelta) : ToolCall :=
  let ex1 := match tc.id with
    | some s => if s.isEmpty then existing else { existing with id := s }
    | none => existing
  let ex2 := match tc.fname with
    | some s => if s.isEmpty then ex1 else { ex1 with function := { ex1.function with name := s } }
    | none => ex1
  match tc.farguments with
  | some s =>
      if s.isEmpty then ex2
      else { ex2 with function := { ex2.function with arguments := ex2.function.arguments ++ s } }
  | none => ex2

def accumStep (m : List (Nat × ToolCall)) (tc : ToolCallDelta) : List (Nat × ToolCall) :=
  let existing := (lookupKey m tc.index).getD emptyToolCall
  upsert m tc.index (applyDelta existing tc)

def chatStreamGo (m : List (Nat × ToolCall)) : List StreamChunkIn → List StreamEvent
  | [] => []
  | c :: rest =>
      let contentEvents : List StreamEvent :=
        match c.content with
        | some s => if s.isEmpty then [] else [{ content := some s, toolCalls := none, done := false }]
        | none => []
      let m' := c.tool_calls.foldl accumStep m
      let finishEvents : List StreamEvent :=
        match c.finish_reason with
        | some s =>
            if s.isEmpty then []
            else [{ content := none,
                    toolCalls := if m'.length > 0 then some (m'.map Prod.snd) else none,
                    done := true }]
        | none => []
      contentEvents ++ finishEvents ++ chatStreamGo m' rest

/-- `LLMClient.chatStream`, with the lazy async generator reified as the
list of events it yields for a given list of backend chunks. -/
def LLMClient.chatStream (chunks : List StreamChunkIn) : List StreamEvent :=
  chatStreamGo [] chunks

/-! ## Capability registry (src/core/mcp/McpRegistry.ts)

A tool's `execute` closure and a provider's live `provideContext` are
asynchronous; the registry model records, for the one aggregation under
study, the provider's name, the outcome of its `provideContext` call,
and its advertised tool list (`none` when the provider has no
`getTools`).  Tool execution itself is passed to the loop as an
explicit oracle (`registryExec`), so `McpTool` keeps only the
advertised identity. -/

structure McpTool where
  name : String
  description : String
deriving DecidableEq, Repr

/-- A registered provider as the registry sees it: its name, the
outcome of `provideContext(ctx)` for the aggregation under study, and
the result of `getTools()` (or `none` when the provider does not
implement `getTools`). -/
structure McpProvider where
  name : String
  provideContext : Except String Json
  tools : Option (List McpTool)

structure McpServerConfig where
  command : String
  args : List String
deriving DecidableEq, Repr

/-- Raw tool description returned by an external MCP server's
`listTools`. -/
structure RawTool where
  name : String
  description : Option String
deriving DecidableEq, Repr

/-- The wrapping in `ExternalMcpProvider.refreshTools`: prefix the tool
name with the server name (namespacing) and default the description. -/
def namespacedTool (providerName : String) (t : RawTool) : McpTool :=
  { name := providerName ++ "__" ++ t.name,
    description :=
      match t.description with
      | some d => if d.isEmpty then "Tool from " ++ providerName else d
      | none => "Tool from " ++ providerName }

/-- Outcome of the spawn/connect/listTools sequence in
`ExternalMcpProvider.start`, supplied by the environment. -/
inductive SpawnOutcome where
  | connectFailed (err : String)
  | listFailed (err : String)
  | ok (tools : List RawTool)
deriving DecidableEq, Repr

structure ExternalMcpProvider where
  name : String
  command : String
  connected : Bool
  tools : List McpTool
deriving DecidableEq, Repr

/-- `ExternalMcpProvider.provideContext`: a pure report of the current
lifecycle state; it never throws. -/
def ExternalMcpProvider.provideContext (p : ExternalMcpProvider) : Json :=
  .obj (.cons "serverName" (.str p.name)
        (.cons "connected" (.bool p.connected)
         (.cons "command" (.str p.command)
          (.cons "toolCount" (.num p.tools.length) .nil))))

/-- `ExternalMcpProvider.start`: no-op on an empty command; on connect
failure the catch block records `connected = false` and `stop()` clears
the tool list; on `listTools` failure the provider stays connected with
no tools; on success the fetched tools are namespaced. -/
def ExternalMcpProvider.start (p : ExternalMcpProvider) (outcome : SpawnOutcome) :
    ExternalMcpProvider :=
  if p.command = "" then p
  else
    match outcome with
    | .connectFailed _ => { p with connected := false, tools := [] }
    | .listFailed _ => { p with connected := true, tools := [] }
    | .ok raws => { p with connected := true, tools := raws.map (namespacedTool p.name) }

structure McpRegistry where
  builtInProviders : List McpProvider
  userProviders : List (String × ExternalMcpProvider)

def externalProviderView (p : ExternalMcpProvider) : McpProvider :=
  { name := p.name,
    provideContext := .ok p.provideContext,
    tools := some p.tools }

def McpRegistry.getAllProviders (r : McpRegistry) : List McpProvider :=
  r.builtInProviders ++ r.userProviders.map (fun nv => externalProviderView nv.2)

def toolStep (acc : List McpTool) (p : McpProvider) : List McpTool :=
  match p.tools with
  | some ts => acc ++ ts
  | none => acc

def McpRegistry.getAllTools (r : McpRegistry) : List McpTool :=
  (r.getAllProviders).foldl toolStep []

def aggStep (acc : List (String × Json)) (p : McpProvider) : List (String × Json) :=
  match p.provideContext with
  | .ok pCtx => upsert acc p.name pCtx
  | .error _ => acc

/-- `McpRegistry.aggregateContext`: fold every provider, spreading each
successful context under the provider's name and skipping (only
logging) failures.  The result is the final JS object, as an
insertion-ordered association list. -/
def McpRegistry.aggregateContext (r : McpRegistry) : List (String × Json) :=
  (r.getAllProviders).foldl aggStep []

/-- `McpRegistry.registerUserMcpServer`: stop and replace any existing
provider under the same name, then construct and start a new external
provider.  Both `start`'s internal catch and the outer catch swallow
spawn errors, so the call always returns a registry. -/
def McpRegistry.registerUserMcpServer (r : McpRegistry) (name : String)
    (config : McpServerConfig) (outcome : SpawnOutcome) : McpRegistry :=
  { r with
    userProviders :=
      upsert r.userProviders name
        (ExternalMcpProvider.start
          { name := name, command := config.command, connected := false, tools := [] }
          outcome) }

/-! ### Built-in providers (GitMcpProvider.ts, FileSystemMcpProvider.ts)

Their tool catalogs are fixed literals in the source; note that the
advertised names are the local names, with no provider prefix.  The
`provideContext` outcome depends on the live workspace and is passed
in. -/

def gitProviderTools : List McpTool :=
  [ { name := "git_status",
      description := "Get the current git status including modified, staged, and untracked files." },
    { name := "git_branch",
      description := "Get the current branch name and list of all branches." },
    { name := "git_diff",
      description := "Get the diff of changes. Can show staged, unstaged, or specific file diffs." },
    { name := "git_log",
      description := "Get recent commit history." } ]

def gitProvider (ctxOutcome : Except String Json) : McpProvider :=
  { name := "git", provideContext := ctxOutcome, tools := some gitProviderTools }

def fileSystemProviderTools : List McpTool :=
  [ { name := "list_dir",
      description := "List contents of a directory in the workspace. Returns file and directory names with their types." },
    { name := "read_file",
      description := "Read the content of a file in the workspace. Returns the file content as text." },
    { name := "search_files",
      description := "Search for files matching a glob pattern in the workspace." } ]

def fileSystemProvider (ctxOutcome : Except String Json) : McpProvider :=
  { name := "filesystem", provideContext := ctxOutcome, tools := some fileSystemProviderTools }

/-- The `McpRegistry` constructor: git first, then filesystem, no user
providers. -/
def McpRegistry.new (gitCtx fsCtx : Except String Json) : McpRegistry :=
  { builtInProviders := [gitProvider gitCtx, fileSystemProvider fsCtx],
    userProviders := [] }

/-! ## Orchestration loop (src/core/phases/PhaseRunner.ts)

The gateway and the registry's tool execution are oracles:
`llm` is one buffered `LLMClient.chat` round-trip, `llmS` yields the
backend chunks of one `chatStream` call, `jparse` is `JSON.parse` on an
argument string, and `registryExec` is `McpRegistry.executeTool`
(throwing modeled as `.error`). -/

def maxIterationsMessage : String :=
  "Maximum tool iterations reached. Please try a simpler request."

def streamCapNotice : String := "\n\nMaximum tool iterations reached."

/-- `PhaseRunner.executeToolCall`: parse the raw argument string, then
dispatch; both a parse failure and a thrown tool error are normalized
to an `error` object, never a raised fault. -/
def executeToolCall (jparse : String → Except String Json)
    (registryExec : String → Json → Except String Json) (tc : ToolCall) : Json :=
  match jparse tc.function.arguments with
  | .error e => .obj (.cons "error" (.str ("Failed to parse tool arguments: " ++ e)) .nil)
  | .ok args =>
      match registryExec tc.function.name args with
      | .error e => .obj (.cons "error" (.str e) .nil)
      | .ok result => result

def initialMessages (systemPrompt contextText : String) : List ChatMessage :=
  [ { role := .system, content := some systemPrompt, tool_call_id := none, tool_calls := none },
    { role := .user,
      content := some ("Workspace Context:\n" ++ contextText
        ++ "\n\nPlease analyze and help me with my task."),
      tool_call_id := none, tool_calls := none } ]

def toolResultMessage (jparse : String → Except String Json)
    (registryExec : String → Json → Except String Json) (tc : ToolCall) : ChatMessage :=
  { role := .tool,
    content := some (Json.stringify (executeToolCall jparse registryExec tc)),
    tool_call_id := some tc.id,
    tool_calls := none }

/-- The buffered tool-calling loop body of `chatWithToolLoop`, with the
remaining iteration budget as fuel and the number of gateway calls made
returned alongside the result. -/
def chatLoopAux (llm : List ChatMessage → Except String ChatResponse)
    (jparse : String → Except String Json)
    (registryExec : String → Json → Except String Json) :
    Nat → List ChatMessage → Except String String × Nat
  | 0, _ => (.ok maxIterationsMessage, 0)
  | fuel + 1, messages =>
      match llm messages with
      | .error e => (.error e, 1)
      | .ok response =>
          match response.toolCalls with
          | some (tc :: rest) =>
              let toolCalls := tc :: rest
              let msgs1 := messages
                ++ [{ role := .assistant, content := response.content,
                      tool_call_id := none, tool_calls := some toolCalls }]
              let msgs2 := msgs1 ++ toolCalls.map (toolResultMessage jparse registryExec)
              let next := chatLoopAux llm jparse registryExec fuel msgs2
              (next.1, next.2 + 1)
          | _ => (.ok (response.content.getD ""), 1)

/-- `PhaseRunner.chatWithToolLoop` with its fixed iteration cap of 10. -/
def chatWithToolLoop (llm : List ChatMessage → Except String ChatResponse)
    (jparse : String → Except String Json)
    (registryExec : String → Json → Except String Json)
    (systemPrompt contextText : String) : Except String String × Nat :=
  chatLoopAux llm jparse registryExec 10 (initialMessages systemPrompt contextText)

/-- One argument passed to the caller's `onChunk` callback: either a
model content fragment or the "[Executing tool: ...]" notice. -/
inductive StreamOut where
  | content (s : String)
  | toolNotice (s : String)
deriving DecidableEq, Repr

/-- The `for await` body of `chatWithToolLoopStream` over one
iteration's events: accumulate content (also forwarding it to
`onChunk`) and remember the finalize event's tool calls. -/
def streamEventStep (acc : String × Option (List ToolCall) × List StreamOut)
    (ev : StreamEvent) : String × Option (List ToolCall) × List StreamOut :=
  let cur := acc.1
  let tcs := acc.2.1
  let outs := acc.2.2
  let step1 : String × List StreamOut :=
    match ev.content with
    | some s => if s.isEmpty then (cur, outs) else (cur ++ s, outs ++ [.content s])
    | none => (cur, outs)
  let tcs' := if ev.done then (match ev.toolCalls with
                | some t => some t
                | none => tcs)
              else tcs
  (step1.1, tcs', step1.2)

def foldStreamEvents (events : List StreamEvent) :
    String × Option (List ToolCall) × List StreamOut :=
  events.foldl streamEventStep ("", none, [])

def concatContents : List StreamOut → String
  | [] => ""
  | .content s :: rest => s ++ concatContents rest
  | .toolNotice _ :: rest => concatContents rest

/-- The streaming tool-calling loop body of `chatWithToolLoopStream`:
fuel-indexed like the buffered one, additionally threading the
`fullContent` accumulator and returning the `onChunk` trace. -/
def streamLoopAux (llmS : List ChatMessage → Except String (List StreamChunkIn))
    (jparse : String → Except String Json)
    (registryExec : String → Json → Except String Json) :
    Nat → List ChatMessage → String → Except String String × Nat × List StreamOut
  | 0, _, fullContent => (.ok (fullContent ++ streamCapNotice), 0, [])
  | fuel + 1, messages, fullContent =>
      match llmS messages with
      | .error e => (.error e, 1, [])
      | .ok chunks =>
          let folded := foldStreamEvents (LLMClient.chatStream chunks)
          let currentContent := folded.1
          let fullContent' := fullContent ++ currentContent
          match folded.2.1 with
          | some (tc :: rest) =>
              let toolCalls := tc :: rest
              let msgs1 := messages
                ++ [{ role := .assistant,
                      content := if currentContent.isEmpty then none else some currentContent,
                      tool_call_id := none, tool_calls := some toolCalls }]
              let msgs2 := msgs1 ++ toolCalls.map (toolResultMessage jparse registryExec)
              let notices := toolCalls.map
                (fun tc => StreamOut.toolNotice ("\n[Executing tool: " ++ tc.function.name ++ "...]\n"))
              let next := streamLoopAux llmS jparse registryExec fuel msgs2 fullContent'
              (next.1, next.2.1 + 1, folded.2.2 ++ notices ++ next.2.2)
          | _ => (.ok fullContent', 1, folded.2.2)

/-- `PhaseRunner.chatWithToolLoopStream` with its fixed iteration cap
of 10. -/
def chatWithToolLoopStream (llmS : List ChatMessage → Except String (List StreamChunkIn))
    (jparse : String → Except String Json)
    (registryExec : String → Json → Except String Json)
    (systemPrompt contextText : String) : Except String String × Nat × List StreamOut :=
  streamLoopAux llmS jparse registryExec 10 (initialMessages systemPrompt contextText) ""

/-! ## Mode selection (TraycerViewProvider._determinePhase) -/

inductive Mode where
  | plan | review | phases
deriving DecidableEq, Repr

/-- ASCII lowercasing of one character, written as an explicit letter
table; this models what `message.toLowerCase()` does on the inputs the
mode matcher cares about. -/
def lowerChar (c : Char) : Char :=
  if c = 'A' then 'a' else if c = 'B' then 'b' else if c = 'C' then 'c'
  else if c = 'D' then 'd' else if c = 'E' then 'e' else if c = 'F' then 'f'
  else if c = 'G' then 'g' else if c = 'H' then 'h' else if c = 'I' then 'i'
  else if c = 'J' then 'j' else if c = 'K' then 'k' else if c = 'L' then 'l'
  else if c = 'M' then 'm' else if c = 'N' then 'n' else if c = 'O' then 'o'
  else if c = 'P' then 'p' else if c = 'Q' then 'q' else if c = 'R' then 'r'
  else if c = 'S' then 's' else if c = 'T' then 't' else if c = 'U' then 'u'
  else if c = 'V' then 'v' else if c = 'W' then 'w' else if c = 'X' then 'x'
  else if c = 'Y' then 'y' else if c = 'Z' then 'z' else c

def toLowerAscii (s : String) : String := String.mk (s.data.map lowerChar)

def determinePhase (message : String) : Mode :=
  let lowerMessage := toLowerAscii message
  if lowerMessage = "plan" then .plan
  else if lowerMessage = "review" then .review
  else if lowerMessage = "phases" then .phases
  else if containsSub lowerMessage "review" then .review
  else if containsSub lowerMessage "phase" then .phases
  else .plan

/-! ## Phase history ownership (PhaseRunner.getHistory / clearHistory)

`getHistory` returns `[...this.history]` — a fresh array.  To state the
aliasing/frame property we use a tiny heap of array cells: the runner's
`history` field is a reference into the heap, `getHistory` allocates a
fresh cell holding a copy, `executePhase`/`executePhaseStream` push
onto the runner's cell, `clearHistory` points the field at a fresh
empty array, and the caller may overwrite any array it was previously
handed. -/

structure PhaseResult where
  phase : Mode
  output : String
  timestamp : Nat
deriving DecidableEq, Repr

def readCell : List (List PhaseResult) → Nat → List PhaseResult
  | [], _ => []
  | c :: _, 0 => c
  | _ :: rest, n + 1 => readCell rest n

def writeCell : List (List PhaseResult) → Nat → List PhaseResult → List (List PhaseResult)
  | [], _, _ => []
  | _ :: rest, 0, v => v :: rest
  | c :: rest, n + 1, v => c :: writeCell rest n v

def nthNat : List Nat → Nat → Option Nat
  | [], _ => none
  | a :: _, 0 => some a
  | _ :: rest, n + 1 => nthNat rest n

inductive Op where
  | push (result : PhaseResult)
  | clear
  | getHist
  | mutate (i : Nat) (v : List PhaseResult)

structure RunState where
  cells : List (List PhaseResult)
  histRef : Nat
  returned : List Nat

def applyOp (s : RunState) : Op → RunState
  | .push result =>
      { s with cells := writeCell s.cells s.histRef (readCell s.cells s.histRef ++ [result]) }
  | .clear =>
      { s with cells := s.cells ++ [[]], histRef := s.cells.length }
  | .getHist =>
      { s with cells := s.cells ++ [readCell s.cells s.histRef],
               returned := s.returned ++ [s.cells.length] }
  | .mutate i v =>
      match nthNat s.returned i with
      | some a => { s with cells := writeCell s.cells a v }
      | none => s

/-- A fresh `PhaseRunner`: one empty history array. -/
def initRunState : RunState := { cells := [[]], histRef := 0, returned := [] }

def runOps (ops : List Op) : RunState := ops.foldl applyOp initRunState

/-- The history the spec expects: only pushes and full clears ever
change it. -/
def histSpecFrom (h : List PhaseResult) : List Op → List PhaseResult
  | [] => h
  | .push r :: rest => histSpecFrom (h ++ [r]) rest
  | .clear :: rest => histSpecFrom [] rest
  | .getHist :: rest => histSpecFrom h rest
  | .mutate _ _ :: rest => histSpecFrom h rest

def histSpec (ops : List Op) : List PhaseResult := histSpecFrom [] ops

/-! ## C9: mode selection policy -/

/-- C9: For every free-text user input, mode selection follows the fixed
fallback policy: input exactly equal to a mode name selects that mode;
otherwise input containing "review" selects review, else input
containing "phase" selects phases, else the default mode plan — exact
match taking precedence over substring match.  The source lowercases
the input before matching, so "containing" is read case-insensitively
(on the lowercased input), which is the only reading consistent with
the code's keyword fallback. -/
theorem c9_determinePhase_policy (msg : String) :
    (msg = "plan" → determinePhase msg = .plan)
    ∧ (msg = "review" → determinePhase msg = .review)
    ∧ (msg = "phases" → determinePhase msg = .phases)
    ∧ (msg ≠ "plan" → msg ≠ "review" → msg ≠ "phases" →
        containsSub (toLowerAscii msg) "review" = true → determinePhase msg = .review)
    ∧ (msg ≠ "plan" → msg ≠ "review" → msg ≠ "phases" →
        containsSub (toLowerAscii msg) "review" = false → containsSub (toLowerAscii msg) "phase" = true →
        determinePhase msg = .phases)
    ∧ (msg ≠ "plan" → msg ≠ "review" → msg ≠ "phases" →
        containsSub (toLowerAscii msg) "review" = false → containsSub (toLowerAscii msg) "phase" = false →
        determinePhase msg = .plan) := by
  refine ⟨?_, ?_, ?_, ?_, ?_, ?_⟩
  · intro h; subst h; decide
  · intro h; subst h; decide
  · intro h; subst h; decide
  · intro _ _ _ hc
    by_cases e1 : toLowerAscii msg = "plan"
    · rw [e1] at hc; exact absurd hc (by decide)
    · by_cases e2 : toLowerAscii msg = "review"
      · simp [determinePhase, e1, e2]
      · by_cases e3 : toLowerAscii msg = "phases"
        · rw [e3] at hc; exact absurd hc (by decide)
        · simp [determinePhase, e1, e2, e3, hc]
  · intro _ _ _ hc hp
    by_cases e1 : toLowerAscii msg = "plan"
    · rw [e1] at hp; exact absurd hp (by decide)
    · by_cases e2 : toLowerAscii msg = "review"
      · rw [e2] at hp; exact absurd hp (by decide)
      · by_cases e3 : toLowerAscii msg = "phases"
        · simp [determinePhase, e1, e2, e3]
        · simp [determinePhase, e1, e2, e3, hc, hp]
  · intro _ _ _ hc hp
    by_cases e1 : toLowerAscii msg = "plan"
    · simp [determinePhase, e1]
    · by_cases e2 : toLowerAscii msg = "review"
      · rw [e2] at hc; exact absurd hc (by decide)
      · by_cases e3 : toLowerAscii msg = "phases"
        · rw [e3] at hp; exact absurd hp (by decide)
        · simp [determinePhase, e1, e2, e3, hc, hp]

/-- C9 witness: the fallback clauses applied at concrete inputs. -/
theorem c9_witness :
    determinePhase "Could you Review this diff" = .review
    ∧ determinePhase "split into Phases please" = .phases
    ∧ determinePhase "hello there" = .plan := by
  refine ⟨?_, ?_, ?_⟩
  · exact (c9_determinePhase_policy "Could you Review this diff").2.2.2.1
      (by decide) (by decide) (by decide) (by decide)
  · exact (c9_determinePhase_policy "split into Phases please").2.2.2.2.1
      (by decide) (by decide) (by decide) (by decide) (by decide)
  · exact (c9_determinePhase_policy "hello there").2.2.2.2.2
      (by decide) (by decide) (by decide) (by decide) (by decide)

/-! ## C1: tool-name namespacing in the flattened catalog -/

/-- C1 counterexample: in the registry built by the constructor (the
two built-in providers, no external ones), the flattened catalog
contains the tool name "list_dir" contributed by the provider named
"filesystem" — a name that contains no "__" separator at all, so it is
not of the form provider__tool.  Built-in providers' tools are not
namespaced. -/
theorem c1_counterexample :
    ((McpRegistry.new (.ok .null) (.ok .null)).getAllTools).map McpTool.name
      = ["git_status", "git_branch", "git_diff", "git_log",
         "list_dir", "read_file", "search_files"]
    ∧ containsSub "list_dir" "__" = false := by
  constructor
  · rfl
  · decide

theorem toolsFold_acc (l : List McpProvider) (acc : List McpTool) :
    List.foldl toolStep acc l = acc ++ List.foldl toolStep [] l := by
  induction l generalizing acc with
  | nil => simp
  | cons p rest ih =>
      rw [List.foldl_cons, List.foldl_cons, ih (toolStep acc p), ih (toolStep [] p)]
      cases h : p.tools with
      | some ts => simp [toolStep, h, List.append_assoc]
      | none => simp [toolStep, h]

theorem toolsFold_append (x y : List McpProvider) :
    List.foldl toolStep [] (x ++ y) = List.foldl toolStep [] x ++ List.foldl toolStep [] y := by
  rw [List.foldl_append, toolsFold_acc]

theorem getAllTools_users_append (b : List McpProvider)
    (u extra : List (String × ExternalMcpProvider)) :
    McpRegistry.getAllTools ⟨b, u ++ extra⟩
      = McpRegistry.getAllTools ⟨b, u⟩
        ++ List.foldl toolStep [] (extra.map (fun nv => externalProviderView nv.2)) := by
  rw [McpRegistry.getAllTools, McpRegistry.getAllProviders]
  show List.foldl toolStep [] (b ++ (List.map _ (u ++ extra))) = _
  rw [List.map_append, ← List.append_assoc, toolsFold_append]
  rfl

/-- C1 amended: only external providers' tools are namespaced as
provider__tool; built-in providers' tools appear in the catalog under
their local, unprefixed names.  For external providers the namespacing
does guarantee non-collision: registering two external providers with
distinct names that advertise the same local tool name puts two
distinct entries in the catalog. -/
theorem c1_amended (r : McpRegistry) (p q cmd : String) (t : RawTool)
    (hpq : p ≠ q) (hcmd : cmd ≠ "")
    (hfp : lookupKey r.userProviders p = none)
    (hfq : lookupKey r.userProviders q = none) :
    ((r.registerUserMcpServer p ⟨cmd, []⟩ (.ok [t])).registerUserMcpServer q ⟨cmd, []⟩
        (.ok [t])).getAllTools
      = (r.getAllTools ++ [namespacedTool p t]) ++ [namespacedTool q t]
    ∧ (namespacedTool p t).name ≠ (namespacedTool q t).name := by
  have hstart : ∀ nm : String,
      ExternalMcpProvider.start
        { name := nm, command := cmd, connected := false, tools := [] } (.ok [t])
      = { name := nm, command := cmd, connected := true, tools := [namespacedTool nm t] } := by
    intro nm
    simp [ExternalMcpProvider.start, hcmd]
  constructor
  · have h1 : (r.registerUserMcpServer p ⟨cmd, []⟩ (.ok [t])).userProviders
        = r.userProviders
          ++ [(p, { name := p, command := cmd, connected := true,
                    tools := [namespacedTool p t] })] := by
      show upsert r.userProviders p _ = _
      rw [upsert_of_lookup_none _ _ _ hfp, hstart]
    have hq2 : lookupKey ((r.registerUserMcpServer p ⟨cmd, []⟩ (.ok [t])).userProviders) q
        = none := by
      rw [h1, lookupKey_append_of_none _ _ _ hfq]
      simp [lookupKey, hpq]
    have h2 : ((r.registerUserMcpServer p ⟨cmd, []⟩ (.ok [t])).registerUserMcpServer q
          ⟨cmd, []⟩ (.ok [t])).userProviders
        = r.userProviders
          ++ [(p, { name := p, command := cmd, connected := true,
                    tools := [namespacedTool p t] }),
              (q, { name := q, command := cmd, connected := true,
                    tools := [namespacedTool q t] })] := by
      show upsert ((r.registerUserMcpServer p ⟨cmd, []⟩ (.ok [t])).userProviders) q _ = _
      rw [upsert_of_lookup_none _ _ _ hq2, hstart, h1, List.append_assoc]
      rfl
    have h3 : (r.registerUserMcpServer p ⟨cmd, []⟩ (.ok [t])).registerUserMcpServer q
          ⟨cmd, []⟩ (.ok [t])
        = { builtInProviders := r.builtInProviders,
            userProviders := r.userProviders
              ++ [(p, { name := p, command := cmd, connected := true,
                        tools := [namespacedTool p t] }),
                  (q, { name := q, command := cmd, connected := true,
                        tools := [namespacedTool q t] })] } := by
      rw [← h2]
      rfl
    have h4 : McpRegistry.getAllTools
        ⟨r.builtInProviders, r.userProviders⟩ = r.getAllTools := rfl
    rw [h3, getAllTools_users_append, h4]
    simp [toolStep, externalProviderView, List.append_assoc]
  · intro h
    have h1 := String.append_right_cancel_of_eq (p ++ "__") (q ++ "__") t.name h
    have h2 := String.append_right_cancel_of_eq p q "__" h1
    exact hpq h2

/-- C1 amended witness: two external providers named "alpha" and "beta"
both advertising local tool "read", registered into an empty registry. -/
theorem c1_witness :
    (((⟨[], []⟩ : McpRegistry).registerUserMcpServer "alpha" ⟨"run", []⟩
        (.ok [⟨"read", none⟩])).registerUserMcpServer "beta" ⟨"run", []⟩
        (.ok [⟨"read", none⟩])).getAllTools
      = (((⟨[], []⟩ : McpRegistry).getAllTools
          ++ [namespacedTool "alpha" ⟨"read", none⟩]) ++ [namespacedTool "beta" ⟨"read", none⟩])
    ∧ (namespacedTool "alpha" (⟨"read", none⟩ : RawTool)).name
        ≠ (namespacedTool "beta" (⟨"read", none⟩ : RawTool)).name :=
  c1_amended ⟨[], []⟩ "alpha" "beta" "run" ⟨"read", none⟩
    (by decide) (by decide) rfl rfl

/-! ## C8: registering an external provider whose spawn fails -/

/-- C8: registering an external provider under a fresh name with a
non-empty command whose spawn/connect fails leaves the provider
registered in a disconnected state with no tools, keeps the flattened
catalog unchanged (none of its tools appear), and makes
aggregateContext report connected := false (and toolCount 0) under that
provider's name.  The model's register function is total: the catch
blocks in start and registerUserMcpServer turn the failure into this
state instead of propagating an exception. -/
theorem c8_register_spawn_failure (r : McpRegistry) (name cmd err : String)
    (hcmd : cmd ≠ "") (hfresh : lookupKey r.userProviders name = none) :
    lookupKey (r.registerUserMcpServer name ⟨cmd, []⟩ (.connectFailed err)).userProviders name
      = some { name := name, command := cmd, connected := false, tools := [] }
    ∧ (r.registerUserMcpServer name ⟨cmd, []⟩ (.connectFailed err)).getAllTools
      = r.getAllTools
    ∧ lookupKey ((r.registerUserMcpServer name ⟨cmd, []⟩ (.connectFailed err)).aggregateContext)
        name
      = some (.obj (.cons "serverName" (.str name)
              (.cons "connected" (.bool false)
               (.cons "command" (.str cmd)
                (.cons "toolCount" (.num 0) .nil))))) := by
  have hstart : ExternalMcpProvider.start
      { name := name, command := cmd, connected := false, tools := [] } (.connectFailed err)
      = { name := name, command := cmd, connected := false, tools := [] } := by
    simp [ExternalMcpProvider.start, hcmd]
  have h1 : (r.registerUserMcpServer name ⟨cmd, []⟩ (.connectFailed err)).userProviders
      = r.userProviders
        ++ [(name, { name := name, command := cmd, connected := false, tools := [] })] := by
    show upsert r.userProviders name _ = _
    rw [upsert_of_lookup_none _ _ _ hfresh, hstart]
  have h3 : r.registerUserMcpServer name ⟨cmd, []⟩ (.connectFailed err)
      = { builtInProviders := r.builtInProviders,
          userProviders := r.userProviders
            ++ [(name, { name := name, command := cmd, connected := false, tools := [] })] } := by
    rw [← h1]
    rfl
  refine ⟨?_, ?_, ?_⟩
  · rw [h1, lookupKey_append_of_none _ _ _ hfresh]
    simp [lookupKey]
  · rw [h3, getAllTools_users_append]
    have h4 : McpRegistry.getAllTools ⟨r.builtInProviders, r.userProviders⟩
        = r.getAllTools := rfl
    rw [h4]
    simp [toolStep, externalProviderView]
  · rw [h3]
    rw [McpRegistry.aggregateContext, McpRegistry.getAllProviders]
    rw [List.map_append, ← List.append_assoc, List.foldl_append]
    simp only [List.map_cons, List.map_nil, List.foldl_cons, List.foldl_nil]
    simp only [aggStep, externalProviderView, ExternalMcpProvider.provideContext]
    exact lookupKey_upsert_self _ _ _

/-- C8 witness: the default registry, a provider named "ext1" with
command "badcmd" whose spawn fails. -/
theorem c8_witness :
    lookupKey ((McpRegistry.new (.ok .null) (.ok .null)).registerUserMcpServer "ext1"
        ⟨"badcmd", []⟩ (.connectFailed "spawn ENOENT")).userProviders "ext1"
      = some { name := "ext1", command := "badcmd", connected := false, tools := [] }
    ∧ ((McpRegistry.new (.ok .null) (.ok .null)).registerUserMcpServer "ext1"
        ⟨"badcmd", []⟩ (.connectFailed "spawn ENOENT")).getAllTools
      = (McpRegistry.new (.ok .null) (.ok .null)).getAllTools
    ∧ lookupKey (((McpRegistry.new (.ok .null) (.ok .null)).registerUserMcpServer "ext1"
        ⟨"badcmd", []⟩ (.connectFailed "spawn ENOENT")).aggregateContext) "ext1"
      = some (.obj (.cons "serverName" (.str "ext1")
              (.cons "connected" (.bool false)
               (.cons "command" (.str "badcmd")
                (.cons "toolCount" (.num 0) .nil))))) :=
  c8_register_spawn_failure (McpRegistry.new (.ok .null) (.ok .null))
    "ext1" "badcmd" "spawn ENOENT" (by decide) rfl

/-! ## C5: one failing provider never aborts aggregation -/

/-- The successful bindings of a provider list, in provider order. -/
def aggFilter (ps : List McpProvider) : List (String × Json) :=
  ps.filterMap (fun p =>
    match p.provideContext with
    | .ok v => some (p.name, v)
    | .error _ => none)

theorem aggregate_char (ps : List McpProvider) :
    ∀ acc : List (String × Json),
      (ps.map McpProvider.name).Nodup →
      (∀ p ∈ ps, lookupKey acc p.name = none) →
      ps.foldl aggStep acc = acc ++ aggFilter ps := by
  induction ps with
  | nil => intro acc _ _; simp [aggFilter]
  | cons p rest ih =>
      intro acc hnd hacc
      rw [List.map_cons, List.nodup_cons] at hnd
      rw [List.foldl_cons]
      cases hp : p.provideContext with
      | ok v =>
          have hstep : aggStep acc p = acc ++ [(p.name, v)] := by
            simp only [aggStep, hp]
            exact upsert_of_lookup_none _ _ _ (hacc p (List.mem_cons_self p rest))
          rw [hstep, ih (acc ++ [(p.name, v)]) hnd.2]
          · rw [List.append_assoc]
            have : aggFilter (p :: rest) = (p.name, v) :: aggFilter rest := by
              simp [aggFilter, List.filterMap_cons, hp]
            rw [this]
            rfl
          · intro q hq
            rw [lookupKey_append_of_none _ _ _ (hacc q (List.mem_cons_of_mem p hq))]
            have hqname : q.name ≠ p.name := by
              intro he
              exact hnd.1 (he ▸ List.mem_map_of_mem McpProvider.name hq)
            simp only [lookupKey]
            rw [if_neg (fun h => hqname h.symm)]
      | error e =>
          have hstep : aggStep acc p = acc := by simp only [aggStep, hp]
          rw [hstep, ih acc hnd.2 (fun q hq => hacc q (List.mem_cons_of_mem p hq))]
          have : aggFilter (p :: rest) = aggFilter rest := by
            simp [aggFilter, List.filterMap_cons, hp]
          rw [this]

theorem aggFilter_keys_sub (ps : List McpProvider) (k : String)
    (h : k ∈ (aggFilter ps).map Prod.fst) : k ∈ ps.map McpProvider.name := by
  induction ps with
  | nil => simp [aggFilter] at h
  | cons p rest ih =>
      cases hp : p.provideContext with
      | ok v =>
          rw [aggFilter, List.filterMap_cons] at h
          rw [hp] at h
          simp only [List.map_cons, List.mem_cons] at h ⊢
          rcases h with h | h
          · exact Or.inl h
          · exact Or.inr (ih h)
      | error e =>
          rw [aggFilter, List.filterMap_cons] at h
          rw [hp] at h
          simp only [List.map_cons, List.mem_cons]
          exact Or.inr (ih h)

theorem aggFilter_lookup_err (ps : List McpProvider)
    (hnd : (ps.map McpProvider.name).Nodup) (p : McpProvider) (hp : p ∈ ps)
    (e : String) (hfail : p.provideContext = .error e) :
    lookupKey (aggFilter ps) p.name = none := by
  induction ps with
  | nil => simp at hp
  | cons q rest ih =>
      rw [List.map_cons, List.nodup_cons] at hnd
      rcases List.mem_cons.mp hp with hqp | hmem
      · subst hqp
        rw [aggFilter, List.filterMap_cons, hfail]
        apply lookupKey_none_of_not_mem
        intro hk
        exact hnd.1 (aggFilter_keys_sub rest p.name hk)
      · cases hq : q.provideContext with
        | ok v =>
            rw [aggFilter, List.filterMap_cons, hq]
            have hne : q.name ≠ p.name := by
              intro he
              exact hnd.1 (he ▸ List.mem_map_of_mem McpProvider.name hmem)
            simp only [lookupKey]
            rw [if_neg hne]
            exact ih hnd.2 hmem
        | error e2 =>
            rw [aggFilter, List.filterMap_cons, hq]
            exact ih hnd.2 hmem

theorem aggFilter_lookup_ok (ps : List McpProvider)
    (hnd : (ps.map McpProvider.name).Nodup) (p : McpProvider) (hp : p ∈ ps)
    (v : Json) (hok : p.provideContext = .ok v) :
    lookupKey (aggFilter ps) p.name = some v := by
  induction ps with
  | nil => simp at hp
  | cons q rest ih =>
      rw [List.map_cons, List.nodup_cons] at hnd
      rcases List.mem_cons.mp hp with hqp | hmem
      · subst hqp
        rw [aggFilter, List.filterMap_cons, hok]
        simp [lookupKey]
      · cases hq : q.provideContext with
        | ok w =>
            rw [aggFilter, List.filterMap_cons, hq]
            have hne : q.name ≠ p.name := by
              intro he
              exact hnd.1 (he ▸ List.mem_map_of_mem McpProvider.name hmem)
            simp only [lookupKey]
            rw [if_neg hne]
            exact ih hnd.2 hmem
        | error e2 =>
            rw [aggFilter, List.filterMap_cons, hq]
            exact ih hnd.2 hmem

/-- C5: for a registry whose providers carry pairwise-distinct names,
if exactly one provider's provideContext fails (and every other
provider succeeds), aggregateContext still completes — it is a total
fold in which the catch branch skips the failed provider — its result
has no entry under the failed provider's name, and it has the
successful context entry for every other provider. -/
theorem c5_aggregate_isolation (r : McpRegistry) (p : McpProvider)
    (hnd : ((r.getAllProviders).map McpProvider.name).Nodup)
    (hp : p ∈ r.getAllProviders) (e : String) (hfail : p.provideContext = .error e)
    (hok : ∀ q ∈ r.getAllProviders, q ≠ p → ∃ v, q.provideContext = .ok v) :
    lookupKey r.aggregateContext p.name = none
    ∧ ∀ q ∈ r.getAllProviders, q ≠ p →
        ∃ v, q.provideContext = .ok v ∧ lookupKey r.aggregateContext q.name = some v := by
  have hchar : r.aggregateContext = aggFilter r.getAllProviders := by
    rw [McpRegistry.aggregateContext,
      aggregate_char r.getAllProviders [] hnd (fun _ _ => rfl)]
    rfl
  constructor
  · rw [hchar]
    exact aggFilter_lookup_err _ hnd p hp e hfail
  · intro q hq hne
    obtain ⟨v, hv⟩ := hok q hq hne
    exact ⟨v, hv, by rw [hchar]; exact aggFilter_lookup_ok _ hnd q hq v hv⟩

def gitFailProvider : McpProvider :=
  { name := "git", provideContext := .error "boom", tools := none }

def fsOkProvider : McpProvider :=
  { name := "filesystem", provideContext := .ok .null, tools := some [] }

def c5Registry : McpRegistry :=
  { builtInProviders := [gitFailProvider, fsOkProvider], userProviders := [] }

/-- C5 witness: git's provideContext fails, filesystem's succeeds; the
aggregate has no "git" entry and keeps the "filesystem" entry. -/
theorem c5_witness :
    lookupKey c5Registry.aggregateContext "git" = none
    ∧ lookupKey c5Registry.aggregateContext "filesystem" = some Json.null := by
  have hp : gitFailProvider ∈ c5Registry.getAllProviders :=
    List.mem_append_left _ (List.mem_cons_self _ _)
  have hmem : fsOkProvider ∈ c5Registry.getAllProviders :=
    List.mem_append_left _ (List.mem_cons_of_mem _ (List.mem_cons_self _ _))
  have hok : ∀ q ∈ c5Registry.getAllProviders, q ≠ gitFailProvider →
      ∃ v, q.provideContext = .ok v := by
    intro q hq hne2
    simp only [c5Registry, McpRegistry.getAllProviders, List.map_nil, List.append_nil,
      List.mem_cons, List.not_mem_nil, or_false, List.mem_singleton] at hq
    rcases hq with hq | hq
    · exact absurd hq hne2
    · exact ⟨Json.null, by rw [hq]; rfl⟩
  have h := c5_aggregate_isolation c5Registry gitFailProvider (by decide) hp "boom" rfl hok
  refine ⟨h.1, ?_⟩
  have hne : fsOkProvider ≠ gitFailProvider := by
    intro he
    exact absurd (congrArg McpProvider.name he) (by decide)
  obtain ⟨v, hv, hl⟩ := h.2 fsOkProvider hmem hne
  have hv' : Json.null = v := by
    have : Except.ok (ε := String) Json.null = Except.ok v := hv
    exact Except.ok.inj this
  rw [← hv'] at hl
  exact hl

/-! ## C3: argument fragments are concatenated in arrival order -/

theorem chatStreamGo_cons (m : List (Nat × ToolCall)) (c : StreamChunkIn)
    (rest : List StreamChunkIn) :
    chatStreamGo m (c :: rest)
    = (match c.content with
       | some s => if s.isEmpty then []
           else [{ content := some s, toolCalls := none, done := false }]
       | none => [])
      ++ (match c.finish_reason with
          | some s => if s.isEmpty then []
              else [{ content := none,
                      toolCalls := if (c.tool_calls.foldl accumStep m).length > 0
                        then some ((c.tool_calls.foldl accumStep m).map Prod.snd) else none,
                      done := true }]
          | none => [])
      ++ chatStreamGo (c.tool_calls.foldl accumStep m) rest := rfl

theorem chatStreamGo_frag_tail (id name : String) (frags : List String) :
    ∀ acc : String,
      chatStreamGo [(0, { id := id, function := { name := name, arguments := acc } })]
        (frags.map (fun f =>
            { content := none,
              tool_calls := [{ index := 0, id := none, fname := none, farguments := some f }],
              finish_reason := none })
          ++ [{ content := none, tool_calls := [], finish_reason := some "tool_calls" }])
      = [{ content := none,
           toolCalls := some
             [{ id := id, function := { name := name, arguments := acc ++ concatAll frags } }],
           done := true }] := by
  induction frags with
  | nil =>
      intro acc
      rw [List.map_nil, List.nil_append, chatStreamGo_cons]
      simp [concatAll, chatStreamGo, show "tool_calls".isEmpty = false from rfl]
  | cons f fs ih =>
      intro acc
      have hm : accumStep [(0, { id := id, function := { name := name, arguments := acc } })]
          { index := 0, id := none, fname := none, farguments := some f }
          = [(0, { id := id, function := { name := name, arguments := acc ++ f } })] := by
        by_cases hf : f.isEmpty
        · have hf0 : f = "" := (String.isEmpty_iff f).mp hf
          subst hf0
          simp [accumStep, lookupKey, applyDelta, upsert, String.append_empty]
        · simp [accumStep, lookupKey, applyDelta, upsert, hf]
      rw [List.map_cons, List.cons_append, chatStreamGo_cons]
      simp only [List.foldl_cons, List.foldl_nil, hm]
      rw [ih (acc ++ f)]
      simp only [List.nil_append]
      rw [concatAll, ← String.append_assoc]

/-- C3: a streamed response carrying one tool call whose id and name
arrive first and whose arguments arrive split into N fragments (in a
fixed order) is reassembled by chatStream into a single finalize event
whose arguments string is the concatenation of the fragments in arrival
order — byte-identical to the arguments the non-streamed chat mapping
returns for the same logical response. -/
theorem c3_fragment_reassembly (id name : String)
    (hid : id.isEmpty = false) (hname : name.isEmpty = false) (frags : List String) :
    LLMClient.chatStream
      ({ content := none,
         tool_calls := [{ index := 0, id := some id, fname := some name, farguments := none }],
         finish_reason := none }
        :: (frags.map (fun f =>
              { content := none,
                tool_calls := [{ index := 0, id := none, fname := none, farguments := some f }],
                finish_reason := none })
            ++ [{ content := none, tool_calls := [], finish_reason := some "tool_calls" }]))
      = [{ content := none,
           toolCalls := some
             [{ id := id, function := { name := name, arguments := concatAll frags } }],
           done := true }]
    ∧ (LLMClient.chatOfChoice
        { message :=
            { content := none,
              tool_calls := some
                [{ id := id, type := "function",
                   function := { name := name, arguments := concatAll frags } }] },
          finish_reason := some "tool_calls" }).toolCalls
      = some [{ id := id, function := { name := name, arguments := concatAll frags } }] := by
  constructor
  · rw [LLMClient.chatStream, chatStreamGo]
    simp only [List.foldl_cons, List.foldl_nil, accumStep, lookupKey, Option.getD_none,
      applyDelta, emptyToolCall, hid, hname, Bool.false_eq_true, if_false, upsert]
    have h := chatStreamGo_frag_tail id name frags ""
    rw [String.empty_append] at h
    simpa using h
  · simp [LLMClient.chatOfChoice, convertRawToolCall]

/-- C3 witness: two fragments "ab", "cd" reassemble to "abcd" and match
the buffered mapping. -/
theorem c3_witness :
    LLMClient.chatStream
      ({ content := none,
         tool_calls := [{ index := 0, id := some "call_1", fname := some "read_file",
                          farguments := none }],
         finish_reason := none }
        :: ([ "ab", "cd" ].map (fun f =>
              { content := none,
                tool_calls := [{ index := 0, id := none, fname := none, farguments := some f }],
                finish_reason := none })
            ++ [{ content := none, tool_calls := [], finish_reason := some "tool_calls" }]))
      = [{ content := none,
           toolCalls := some
             [{ id := "call_1",
                function := { name := "read_file", arguments := concatAll ["ab", "cd"] } }],
           done := true }]
    ∧ (LLMClient.chatOfChoice
        { message :=
            { content := none,
              tool_calls := some
                [{ id := "call_1", type := "function",
                   function := { name := "read_file", arguments := concatAll ["ab", "cd"] } }] },
          finish_reason := some "tool_calls" }).toolCalls
      = some [{ id := "call_1",
                function := { name := "read_file", arguments := concatAll ["ab", "cd"] } }] :=
  c3_fragment_reassembly "call_1" "read_file" rfl rfl ["ab", "cd"]

/-! ## C7: order of the finalize event's toolCalls list -/

/-- C7 counterexample: when the delta for positional index 1 arrives
before the delta for index 0, the finalize event lists index 1's call
first — the JS Map iterates in insertion order, so the list is not
ordered by ascending positional index. -/
theorem c7_counterexample :
    LLMClient.chatStream
      [ { content := none,
          tool_calls := [{ index := 1, id := some "b", fname := some "tB",
                           farguments := some "argB" }],
          finish_reason := none },
        { content := none,
          tool_calls := [{ index := 0, id := some "a", fname := some "tA",
                           farguments := some "argA" }],
          finish_reason := none },
        { content := none, tool_calls := [], finish_reason := some "stop" } ]
      = [{ content := none,
           toolCalls := some
             [{ id := "b", function := { name := "tB", arguments := "argB" } },
              { id := "a", function := { name := "tA", arguments := "argA" } }],
           done := true }]
    ∧ ([{ id := "b", function := { name := "tB", arguments := "argB" } },
        { id := "a", function := { name := "tA", arguments := "argA" } }] :
        List ToolCall)
      ≠ [{ id := "a", function := { name := "tA", arguments := "argA" } },
         { id := "b", function := { name := "tB", arguments := "argB" } }] := by
  constructor
  · decide
  · decide

def allDeltas : List StreamChunkIn → List ToolCallDelta
  | [] => []
  | c :: rest => c.tool_calls ++ allDeltas rest

/-- First-occurrence deduplication of an index sequence, relative to a
set of already-seen keys: the order in which a JS Map acquires its
keys. -/
def dedupNew (seen : List Nat) : List Nat → List Nat
  | [] => []
  | k :: ks => if k ∈ seen then dedupNew seen ks else k :: dedupNew (k :: seen) ks

theorem dedupNew_congr (s1 s2 : List Nat) (hmem : ∀ x, x ∈ s1 ↔ x ∈ s2) :
    ∀ l, dedupNew s1 l = dedupNew s2 l := by
  intro l
  induction l generalizing s1 s2 with
  | nil => rfl
  | cons k ks ih =>
      rw [dedupNew, dedupNew]
      by_cases hk : k ∈ s1
      · rw [if_pos hk, if_pos ((hmem k).mp hk)]
        exact ih s1 s2 hmem
      · rw [if_neg hk, if_neg (fun h2 => hk ((hmem k).mpr h2))]
        refine congrArg _ (ih (k :: s1) (k :: s2) ?_)
        intro x
        simp only [List.mem_cons]
        exact or_congr Iff.rfl (hmem x)

theorem keys_upsert_mem {κ α : Type} [DecidableEq κ]
    (m : List (κ × α)) (k : κ) (v : α) (h : k ∈ m.map Prod.fst) :
    (upsert m k v).map Prod.fst = m.map Prod.fst := by
  induction m with
  | nil => simp at h
  | cons hd tl ih =>
      obtain ⟨k', v'⟩ := hd
      by_cases hk : k' = k
      · simp [upsert, hk]
      · rw [List.map_cons, List.mem_cons] at h
        rcases h with h | h
        · exact absurd h.symm hk
        · simp [upsert, hk, ih h]

theorem keys_upsert_new {κ α : Type} [DecidableEq κ]
    (m : List (κ × α)) (k : κ) (v : α) (h : k ∉ m.map Prod.fst) :
    (upsert m k v).map Prod.fst = m.map Prod.fst ++ [k] := by
  rw [upsert_of_lookup_none m k v (lookupKey_none_of_not_mem m k h)]
  simp

theorem mem_keys_of_lookup_some {κ α : Type} [DecidableEq κ]
    (m : List (κ × α)) (k : κ) (v : α) (h : lookupKey m k = some v) :
    k ∈ m.map Prod.fst := by
  induction m with
  | nil => simp [lookupKey] at h
  | cons hd tl ih =>
      obtain ⟨k', v'⟩ := hd
      by_cases hk : k' = k
      · simp [hk]
      · rw [lookupKey, if_neg hk] at h
        simp only [List.map_cons, List.mem_cons]
        exact Or.inr (ih h)

theorem accumFold_keys (ds : List ToolCallDelta) :
    ∀ m : List (Nat × ToolCall),
      (ds.foldl accumStep m).map Prod.fst
        = m.map Prod.fst ++ dedupNew (m.map Prod.fst) (ds.map ToolCallDelta.index) := by
  induction ds with
  | nil => intro m; simp [dedupNew]
  | cons d rest ih =>
      intro m
      rw [List.foldl_cons, List.map_cons, dedupNew, ih (accumStep m d)]
      by_cases hk : d.index ∈ m.map Prod.fst
      · rw [if_pos hk]
        have : (accumStep m d).map Prod.fst = m.map Prod.fst := keys_upsert_mem _ _ _ hk
        rw [this]
      · rw [if_neg hk]
        have : (accumStep m d).map Prod.fst = m.map Prod.fst ++ [d.index] := by
          rw [accumStep]
          exact keys_upsert_new _ _ _ hk
        rw [this]
        rw [dedupNew_congr (m.map Prod.fst ++ [d.index]) (d.index :: m.map Prod.fst)
          (by intro x; simp [List.mem_append, List.mem_cons, or_comm]) (rest.map ToolCallDelta.index)]
        simp [List.append_assoc]

theorem chatStreamGo_events_shape (fc : StreamChunkIn) (fr : String)
    (hfc : fc.finish_reason = some fr) (hfr : fr.isEmpty = false) :
    ∀ (cs : List StreamChunkIn), (∀ c ∈ cs, c.finish_reason = none) →
    ∀ m : List (Nat × ToolCall),
      ∃ evs : List StreamEvent,
        chatStreamGo m (cs ++ [fc])
          = evs
            ++ [{ content := none,
                  toolCalls :=
                    if ((allDeltas (cs ++ [fc])).foldl accumStep m).length > 0
                      then some (((allDeltas (cs ++ [fc])).foldl accumStep m).map Prod.snd)
                      else none,
                  done := true }] := by
  intro cs
  induction cs with
  | nil =>
      intro _ m
      rw [List.nil_append, chatStreamGo_cons, hfc]
      refine ⟨(match fc.content with
        | some s => if s.isEmpty then []
            else [{ content := some s, toolCalls := none, done := false }]
        | none => []), ?_⟩
      simp [hfr, allDeltas, chatStreamGo]
  | cons c rest ih =>
      intro hnone m
      rw [List.cons_append, chatStreamGo_cons, hnone c (List.mem_cons_self c rest)]
      obtain ⟨evs, hevs⟩ := ih (fun q hq => hnone q (List.mem_cons_of_mem c hq)) 
        (c.tool_calls.foldl accumStep m)
      rw [hevs]
      refine ⟨(match c.content with
        | some s => if s.isEmpty then []
            else [{ content := some s, toolCalls := none, done := false }]
        | none => []) ++ evs, ?_⟩
      have hdelta : allDeltas (c :: (rest ++ [fc]))
          = c.tool_calls ++ allDeltas (rest ++ [fc]) := rfl
      rw [hdelta, List.foldl_append]
      simp [List.append_assoc]

/-- C7 amended: the toolCalls list yielded with the finalize event
lists the accumulated calls in insertion order of the accumulator map —
the order in which each positional index first appeared in the delta
stream — which coincides with ascending index only when indices first
appear in ascending order. -/
theorem c7_amended (cs : List StreamChunkIn) (fc : StreamChunkIn) (fr : String)
    (hcs : ∀ c ∈ cs, c.finish_reason = none)
    (hfc : fc.finish_reason = some fr) (hfr : fr.isEmpty = false)
    (hne : allDeltas (cs ++ [fc]) ≠ []) :
    (∃ evs, LLMClient.chatStream (cs ++ [fc])
        = evs ++ [{ content := none,
                    toolCalls :=
                      some (((allDeltas (cs ++ [fc])).foldl accumStep []).map Prod.snd),
                    done := true }])
    ∧ ((allDeltas (cs ++ [fc])).foldl accumStep []).map Prod.fst
        = dedupNew [] ((allDeltas (cs ++ [fc])).map ToolCallDelta.index) := by
  have hkeys : ((allDeltas (cs ++ [fc])).foldl accumStep []).map Prod.fst
      = dedupNew [] ((allDeltas (cs ++ [fc])).map ToolCallDelta.index) := by
    have h := accumFold_keys (allDeltas (cs ++ [fc])) []
    simpa using h
  have hlen : ((allDeltas (cs ++ [fc])).foldl accumStep []).length > 0 := by
    rcases hd : allDeltas (cs ++ [fc]) with _ | ⟨d, ds⟩
    · exact absurd hd hne
    · rw [hd] at hkeys
      rw [List.map_cons, dedupNew, if_neg (List.not_mem_nil d.index)] at hkeys
      have hne2 : ((d :: ds).foldl accumStep []).map Prod.fst ≠ [] := by
        rw [hkeys]; simp
      have hne3 : (d :: ds).foldl accumStep [] ≠ [] := by
        intro h
        exact hne2 (by rw [h]; rfl)
      exact List.length_pos.mpr hne3
  obtain ⟨evs, hevs⟩ := chatStreamGo_events_shape fc fr hfc hfr cs hcs []
  constructor
  · refine ⟨evs, ?_⟩
    rw [LLMClient.chatStream, hevs, if_pos hlen]
  · exact hkeys

/-- C7 amended witness: indices arriving in the order 1, 0. -/
theorem c7_witness :
    (∃ evs, LLMClient.chatStream
        ([ { content := none,
             tool_calls := [{ index := 1, id := some "b", fname := some "tB",
                              farguments := some "argB" }],
             finish_reason := none },
           { content := none,
             tool_calls := [{ index := 0, id := some "a", fname := some "tA",
                              farguments := some "argA" }],
             finish_reason := none } ]
          ++ [{ content := none, tool_calls := [], finish_reason := some "stop" }])
        = evs ++ [{ content := none,
                    toolCalls :=
                      some (((allDeltas
                        ([ { content := none,
                             tool_calls := [{ index := 1, id := some "b", fname := some "tB",
                                              farguments := some "argB" }],
                             finish_reason := none },
                           { content := none,
                             tool_calls := [{ index := 0, id := some "a", fname := some "tA",
                                              farguments := some "argA" }],
                             finish_reason := none } ]
                          ++ [{ content := none, tool_calls := [],
                                finish_reason := some "stop" }])).foldl accumStep []).map Prod.snd),
                    done := true }])
    ∧ ((allDeltas
          ([ { content := none,
               tool_calls := [{ index := 1, id := some "b", fname := some "tB",
                                farguments := some "argB" }],
               finish_reason := none },
             { content := none,
               tool_calls := [{ index := 0, id := some "a", fname := some "tA",
                                farguments := some "argA" }],
               finish_reason := none } ]
            ++ [{ content := none, tool_calls := [],
                  finish_reason := some "stop" }])).foldl accumStep []).map Prod.fst
        = dedupNew [] ((allDeltas
            ([ { content := none,
                 tool_calls := [{ index := 1, id := some "b", fname := some "tB",
                                  farguments := some "argB" }],
                 finish_reason := none },
               { content := none,
                 tool_calls := [{ index := 0, id := some "a", fname := some "tA",
                                  farguments := some "argA" }],
                 finish_reason := none } ]
              ++ [{ content := none, tool_calls := [],
                    finish_reason := some "stop" }])).map ToolCallDelta.index) :=
  c7_amended
    [ { content := none,
        tool_calls := [{ index := 1, id := some "b", fname := some "tB",
                         farguments := some "argB" }],
        finish_reason := none },
      { content := none,
        tool_calls := [{ index := 0, id := some "a", fname := some "tA",
                         farguments := some "argA" }],
        finish_reason := none } ]
    { content := none, tool_calls := [], finish_reason := some "stop" }
    "stop" (by decide) rfl rfl (by decide)

/-! ## C2 / C6: the iteration cap, buffered and streaming -/

/-- The environment of an invocation in which every buffered model
response requests at least one tool call. -/
def alwaysToolCallsBuffered (llm : List ChatMessage → Except String ChatResponse) : Prop :=
  ∀ messages, ∃ response tc rest,
    llm messages = .ok response ∧ response.toolCalls = some (tc :: rest)

theorem chatLoopAux_cap (llm : List ChatMessage → Except String ChatResponse)
    (jp : String → Except String Json) (ex : String → Json → Except String Json)
    (h : alwaysToolCallsBuffered llm) :
    ∀ (fuel : Nat) (messages : List ChatMessage),
      chatLoopAux llm jp ex fuel messages = (.ok maxIterationsMessage, fuel) := by
  intro fuel
  induction fuel with
  | zero => intro messages; rfl
  | succ n ih =>
      intro messages
      obtain ⟨response, tc, rest, hllm, htc⟩ := h messages
      simp only [chatLoopAux, hllm, htc]
      rw [ih]

theorem concatContents_append (a b : List StreamOut) :
    concatContents (a ++ b) = concatContents a ++ concatContents b := by
  induction a with
  | nil => simp [concatContents]
  | cons x rest ih =>
      cases x with
      | content s => simp [concatContents, ih, String.append_assoc]
      | toolNotice s => simp [concatContents, ih]

theorem concatContents_notices (tcs : List ToolCall) (f : ToolCall → String) :
    concatContents (tcs.map (fun tc => StreamOut.toolNotice (f tc))) = "" := by
  induction tcs with
  | nil => rfl
  | cons t rest ih => simpa [concatContents] using ih

theorem streamEventStep_content_inv (acc : String × Option (List ToolCall) × List StreamOut)
    (ev : StreamEvent) (h : acc.1 = concatContents acc.2.2) :
    (streamEventStep acc ev).1 = concatContents (streamEventStep acc ev).2.2 := by
  obtain ⟨cur, tcs, outs⟩ := acc
  cases hc : ev.content with
  | none => simpa [streamEventStep, hc] using h
  | some s =>
      by_cases hs : s.isEmpty
      · simpa [streamEventStep, hc, hs] using h
      · simp only at h
        simp [streamEventStep, hc, hs, concatContents_append, concatContents,
          String.append_empty, h]

theorem foldStream_content_inv (events : List StreamEvent) :
    ∀ acc : String × Option (List ToolCall) × List StreamOut,
      acc.1 = concatContents acc.2.2 →
      (events.foldl streamEventStep acc).1
        = concatContents ((events.foldl streamEventStep acc).2.2) := by
  induction events with
  | nil => intro acc h; exact h
  | cons ev rest ih =>
      intro acc h
      exact ih _ (streamEventStep_content_inv acc ev h)

theorem foldStreamEvents_content (events : List StreamEvent) :
    (foldStreamEvents events).1 = concatContents ((foldStreamEvents events).2.2) :=
  foldStream_content_inv events ("", none, []) rfl

/-- The environment of an invocation in which every streamed iteration
finishes with at least one reassembled tool call. -/
def alwaysToolCallsStream (llmS : List ChatMessage → Except String (List StreamChunkIn)) : Prop :=
  ∀ messages, ∃ chunks tc rest,
    llmS messages = .ok chunks
    ∧ (foldStreamEvents (LLMClient.chatStream chunks)).2.1 = some (tc :: rest)

theorem streamLoopAux_cap (llmS : List ChatMessage → Except String (List StreamChunkIn))
    (jp : String → Except String Json) (ex : String → Json → Except String Json)
    (h : alwaysToolCallsStream llmS) :
    ∀ (fuel : Nat) (messages : List ChatMessage) (fullContent : String),
      ∃ outs, streamLoopAux llmS jp ex fuel messages fullContent
        = (.ok (fullContent ++ (concatContents outs ++ streamCapNotice)), fuel, outs) := by
  intro fuel
  induction fuel with
  | zero =>
      intro messages fullContent
      refine ⟨[], ?_⟩
      rw [streamLoopAux]
      rw [show concatContents [] = "" from rfl, String.empty_append]
  | succ n ih =>
      intro messages fullContent
      obtain ⟨chunks, tc, rest, hllm, htc⟩ := h messages
      have hcontent : (foldStreamEvents (LLMClient.chatStream chunks)).1
          = concatContents ((foldStreamEvents (LLMClient.chatStream chunks)).2.2) :=
        foldStreamEvents_content _
      obtain ⟨outs1, hrec⟩ := ih
        ((messages ++ [ ({ role := .assistant,
                           content :=
                             if (foldStreamEvents (LLMClient.chatStream chunks)).1.isEmpty
                             then none
                             else some (foldStreamEvents (LLMClient.chatStream chunks)).1,
                           tool_call_id := none,
                           tool_calls := some (tc :: rest) } : ChatMessage) ])
          ++ (tc :: rest).map (toolResultMessage jp ex))
        (fullContent ++ (foldStreamEvents (LLMClient.chatStream chunks)).1)
      refine ⟨(foldStreamEvents (LLMClient.chatStream chunks)).2.2
        ++ (tc :: rest).map (fun tc => StreamOut.toolNotice
              ("\n[Executing tool: " ++ tc.function.name ++ "...]\n"))
        ++ outs1, ?_⟩
      simp only [streamLoopAux, hllm, htc]
      rw [hrec]
      simp only [Prod.mk.injEq]
      refine ⟨congrArg Except.ok ?_, trivial⟩
      rw [concatContents_append, concatContents_append, concatContents_notices, ← hcontent]
      simp [String.append_assoc, String.append_empty]

/-- C2: whenever every model response (buffered) and every streamed
iteration keeps requesting tool calls, both loop variants stop after
exactly 10 iterations — 10 gateway calls, never an 11th — and report
that the iteration cap was reached (the buffered loop by its fixed cap
message, the streaming loop by the cap notice appended to the
accumulated content). -/
theorem c2_iteration_cap (llm : List ChatMessage → Except String ChatResponse)
    (llmS : List ChatMessage → Except String (List StreamChunkIn))
    (jp : String → Except String Json) (ex : String → Json → Except String Json)
    (sp ct : String)
    (hb : alwaysToolCallsBuffered llm) (hs : alwaysToolCallsStream llmS) :
    chatWithToolLoop llm jp ex sp ct = (.ok maxIterationsMessage, 10)
    ∧ (chatWithToolLoopStream llmS jp ex sp ct).2.1 = 10
    ∧ ∃ s, (chatWithToolLoopStream llmS jp ex sp ct).1 = .ok (s ++ streamCapNotice) := by
  obtain ⟨outs, houts⟩ := streamLoopAux_cap llmS jp ex hs 10 (initialMessages sp ct) ""
  refine ⟨chatLoopAux_cap llm jp ex hb 10 _, ?_, ?_⟩
  · rw [chatWithToolLoopStream, houts]
  · refine ⟨concatContents outs, ?_⟩
    rw [chatWithToolLoopStream, houts, String.empty_append]

def llmLoopZ : List ChatMessage → Except String ChatResponse :=
  fun _ => .ok { content := some "zzz",
                 toolCalls := some [{ id := "call_z",
                                      function := { name := "toolz", arguments := "\x7b\x7d" } }],
                 finishReason := "tool_calls" }

def llmStreamZ : List ChatMessage → Except String (List StreamChunkIn) :=
  fun _ => .ok [{ content := some "zzz",
                  tool_calls := [{ index := 0, id := some "call_z", fname := some "toolz",
                                   farguments := some "\x7b\x7d" }],
                  finish_reason := some "tool_calls" }]

def jpOk : String → Except String Json := fun _ => .ok (Json.obj .nil)

def exOk : String → Json → Except String Json := fun _ _ => .ok (Json.str "ok")

/-- C2 witness: concrete oracles whose every response carries content
"zzz" and one tool call. -/
theorem c2_witness :
    chatWithToolLoop llmLoopZ jpOk exOk "sys" "ctx" = (.ok maxIterationsMessage, 10)
    ∧ (chatWithToolLoopStream llmStreamZ jpOk exOk "sys" "ctx").2.1 = 10
    ∧ ∃ s, (chatWithToolLoopStream llmStreamZ jpOk exOk "sys" "ctx").1
        = .ok (s ++ streamCapNotice) :=
  c2_iteration_cap llmLoopZ llmStreamZ jpOk exOk "sys" "ctx"
    (fun _ => ⟨_, _, _, rfl, rfl⟩) (fun _ => ⟨_, _, _, rfl, rfl⟩)

/-- C6 counterexample: with a buffered oracle that answers content
"zzz" plus a tool call on every iteration, the accumulated content is
"zzz" repeated 10 times, yet the buffered loop's returned output is the
fixed cap message, which does not even contain "zzz" — so the buffered
output is not the accumulated content plus a notice. -/
theorem c6_counterexample :
    chatWithToolLoop llmLoopZ jpOk exOk "sys" "ctx" = (.ok maxIterationsMessage, 10)
    ∧ containsSub maxIterationsMessage "zzz" = false := by
  constructor
  · exact chatLoopAux_cap llmLoopZ jpOk exOk (fun _ => ⟨_, _, _, rfl, rfl⟩) 10 _
  · decide

/-- C6 amended: when the iteration cap is reached with tool calls still
pending, the STREAMING variant returns the concatenation of all content
fragments it delivered to the callback followed by the cap notice,
while the BUFFERED variant returns only the fixed cap-reached message,
discarding the content accumulated across iterations. -/
theorem c6_amended (llm : List ChatMessage → Except String ChatResponse)
    (llmS : List ChatMessage → Except String (List StreamChunkIn))
    (jp : String → Except String Json) (ex : String → Json → Except String Json)
    (sp ct : String)
    (hb : alwaysToolCallsBuffered llm) (hs : alwaysToolCallsStream llmS) :
    (chatWithToolLoop llm jp ex sp ct).1 = .ok maxIterationsMessage
    ∧ ∃ outs, chatWithToolLoopStream llmS jp ex sp ct
        = (.ok (concatContents outs ++ streamCapNotice), 10, outs) := by
  constructor
  · rw [chatWithToolLoop, chatLoopAux_cap llm jp ex hb 10 _]
  · obtain ⟨outs, houts⟩ := streamLoopAux_cap llmS jp ex hs 10 (initialMessages sp ct) ""
    refine ⟨outs, ?_⟩
    rw [chatWithToolLoopStream, houts, String.empty_append]

/-- C6 amended witness. -/
theorem c6_witness :
    (chatWithToolLoop llmLoopZ jpOk exOk "sys" "ctx").1 = .ok maxIterationsMessage
    ∧ ∃ outs, chatWithToolLoopStream llmStreamZ jpOk exOk "sys" "ctx"
        = (.ok (concatContents outs ++ streamCapNotice), 10, outs) :=
  c6_amended llmLoopZ llmStreamZ jpOk exOk "sys" "ctx"
    (fun _ => ⟨_, _, _, rfl, rfl⟩) (fun _ => ⟨_, _, _, rfl, rfl⟩)

/-! ## C4: a failing tool call is folded into the conversation -/

theorem chatLoopAux_two (llm : List ChatMessage → Except String ChatResponse)
    (jp : String → Except String Json) (ex : String → Json → Except String Json)
    (fuel : Nat) (messages : List ChatMessage) (resp1 : ChatResponse)
    (t : ToolCall) (ts : List ToolCall) (finalText fr2 : String)
    (h1 : llm messages = .ok resp1) (htc : resp1.toolCalls = some (t :: ts))
    (h2 : llm ((messages
            ++ [{ role := .assistant, content := resp1.content, tool_call_id := none,
                  tool_calls := some (t :: ts) }])
          ++ (t :: ts).map (toolResultMessage jp ex))
        = .ok { content := some finalText, toolCalls := none, finishReason := fr2 }) :
    chatLoopAux llm jp ex ((fuel + 1) + 1) messages = (.ok finalText, 2) := by
  have h2' := h2
  simp only [List.append_assoc, List.cons_append, List.singleton_append, List.nil_append,
    List.map_cons] at h2'
  simp [chatLoopAux, h1, htc, h2']

/-- C4: when one tool call in the iteration fails — its raw arguments
do not parse, or the registry execution throws — the loop still builds
one tool-result message per requested call (each carrying its
tool_call_id, the failing one carrying an error-object payload), feeds
them all to the next model call, and the invocation still terminates in
Done with the model's final content. -/
theorem c4_tool_error_isolation (llm : List ChatMessage → Except String ChatResponse)
    (jp : String → Except String Json) (ex : String → Json → Except String Json)
    (sp ct : String) (c0 : Option String) (fr fr2 : String)
    (tcs : List ToolCall) (k : Fin tcs.length) (finalText : String)
    (hfail : (∃ e, jp ((tcs.get k).function.arguments) = .error e)
           ∨ (∃ args e, jp ((tcs.get k).function.arguments) = .ok args
                ∧ ex ((tcs.get k).function.name) args = .error e))
    (h1 : llm (initialMessages sp ct)
        = .ok { content := c0, toolCalls := some tcs, finishReason := fr })
    (h2 : llm ((initialMessages sp ct
            ++ [{ role := .assistant, content := c0, tool_call_id := none,
                  tool_calls := some tcs }])
          ++ tcs.map (toolResultMessage jp ex))
        = .ok { content := some finalText, toolCalls := none, finishReason := fr2 }) :
    chatWithToolLoop llm jp ex sp ct = (.ok finalText, 2)
    ∧ ∃ emsg, executeToolCall jp ex (tcs.get k)
        = .obj (.cons "error" (.str emsg) .nil) := by
  constructor
  · cases tcs with
    | nil => exact k.elim0
    | cons t ts =>
        exact chatLoopAux_two llm jp ex 8 (initialMessages sp ct)
          { content := c0, toolCalls := some (t :: ts), finishReason := fr }
          t ts finalText fr2 h1 rfl h2
  · rcases hfail with ⟨e, he⟩ | ⟨args, e, hok, herr⟩
    · exact ⟨"Failed to parse tool arguments: " ++ e, by simp only [executeToolCall, he]⟩
    · exact ⟨e, by simp only [executeToolCall, hok, herr]⟩

def tcsW : List ToolCall :=
  [ { id := "call_a", function := { name := "toolA", arguments := "notjson" } },
    { id := "call_b", function := { name := "toolB", arguments := "42" } } ]

def jpW : String → Except String Json :=
  fun s => if s = "42" then .ok (Json.num 42) else .error "Unexpected token"

def exW : String → Json → Except String Json := fun _ _ => .ok (Json.str "ok")

def llmW : List ChatMessage → Except String ChatResponse :=
  fun messages =>
    if messages.length = 2 then
      .ok { content := some "calling", toolCalls := some tcsW, finishReason := "tool_calls" }
    else
      .ok { content := some "done", toolCalls := none, finishReason := "stop" }

/-- C4 witness: the first of two tool calls has unparseable arguments;
the second call still executes and the invocation still reaches Done. -/
theorem c4_witness :
    chatWithToolLoop llmW jpW exW "s" "c" = (.ok "done", 2)
    ∧ ∃ emsg, executeToolCall jpW exW (tcsW.get ⟨0, by decide⟩)
        = .obj (.cons "error" (.str emsg) .nil) :=
  c4_tool_error_isolation llmW jpW exW "s" "c" (some "calling") "tool_calls" "stop"
    tcsW ⟨0, by decide⟩ "done"
    (Or.inl ⟨"Unexpected token", rfl⟩) rfl rfl

/-! ## C10: getHistory returns a fresh copy -/

theorem writeCell_length (cs : List (List PhaseResult)) :
    ∀ (a : Nat) (v : List PhaseResult), (writeCell cs a v).length = cs.length := by
  induction cs with
  | nil => intro a v; rfl
  | cons c rest ih =>
      intro a v
      cases a with
      | zero => rfl
      | succ n => simp [writeCell, ih]

theorem readCell_writeCell_same (cs : List (List PhaseResult)) :
    ∀ (a : Nat) (v : List PhaseResult), a < cs.length →
      readCell (writeCell cs a v) a = v := by
  induction cs with
  | nil => intro a v h; simp at h
  | cons c rest ih =>
      intro a v h
      cases a with
      | zero => rfl
      | succ n =>
          simp only [List.length_cons, Nat.succ_lt_succ_iff] at h
          simp [writeCell, readCell, ih n v h]

theorem readCell_writeCell_other (cs : List (List PhaseResult)) :
    ∀ (a b : Nat) (v : List PhaseResult), b ≠ a →
      readCell (writeCell cs a v) b = readCell cs b := by
  induction cs with
  | nil => intro a b v _; rfl
  | cons c rest ih =>
      intro a b v hne
      cases a with
      | zero =>
          cases b with
          | zero => exact absurd rfl hne
          | succ m => rfl
      | succ n =>
          cases b with
          | zero => rfl
          | succ m =>
              simp only [writeCell, readCell]
              exact ih n m v (fun h => hne (congrArg Nat.succ h))

theorem readCell_append_left (cs ds : List (List PhaseResult)) :
    ∀ a : Nat, a < cs.length → readCell (cs ++ ds) a = readCell cs a := by
  induction cs with
  | nil => intro a h; simp at h
  | cons c rest ih =>
      intro a h
      cases a with
      | zero => rfl
      | succ n =>
          simp only [List.length_cons, Nat.succ_lt_succ_iff] at h
          simp only [List.cons_append, readCell]
          exact ih n h

theorem readCell_append_self (cs : List (List PhaseResult)) (v : List PhaseResult) :
    readCell (cs ++ [v]) cs.length = v := by
  induction cs with
  | nil => rfl
  | cons c rest ih => simpa [readCell] using ih

theorem nthNat_mem (l : List Nat) : ∀ (i a : Nat), nthNat l i = some a → a ∈ l := by
  induction l with
  | nil => intro i a h; simp [nthNat] at h
  | cons x rest ih =>
      intro i a h
      cases i with
      | zero =>
          rw [nthNat] at h
          exact (Option.some.inj h) ▸ List.mem_cons_self x rest
      | succ n =>
          rw [nthNat] at h
          exact List.mem_cons_of_mem x (ih n a h)

theorem runOps_inv (ops : List Op) :
    ∀ (s : RunState) (spec : List PhaseResult),
      s.histRef < s.cells.length →
      (∀ a ∈ s.returned, a < s.cells.length ∧ a ≠ s.histRef) →
      readCell s.cells s.histRef = spec →
      (ops.foldl applyOp s).histRef < (ops.foldl applyOp s).cells.length
      ∧ (∀ a ∈ (ops.foldl applyOp s).returned,
          a < (ops.foldl applyOp s).cells.length ∧ a ≠ (ops.foldl applyOp s).histRef)
      ∧ readCell (ops.foldl applyOp s).cells (ops.foldl applyOp s).histRef
          = histSpecFrom spec ops := by
  induction ops with
  | nil => intro s spec h1 h2 h3; exact ⟨h1, h2, h3⟩
  | cons op rest ih =>
      intro s spec h1 h2 h3
      rw [List.foldl_cons]
      cases op with
      | push r =>
          refine ih (applyOp s (.push r)) (spec ++ [r]) ?_ ?_ ?_
          · simpa [applyOp, writeCell_length] using h1
          · intro a ha
            have h := h2 a ha
            simpa [applyOp, writeCell_length] using h
          · simp only [applyOp]
            rw [readCell_writeCell_same s.cells s.histRef _ h1, h3]
      | clear =>
          refine ih (applyOp s .clear) [] ?_ ?_ ?_
          · simp [applyOp]
          · intro a ha
            have h := h2 a ha
            simp only [applyOp, List.length_append, List.length_cons, List.length_nil]
            exact ⟨Nat.lt_succ_of_lt h.1, Nat.ne_of_lt h.1⟩
          · simp only [applyOp]
            exact readCell_append_self s.cells []
      | getHist =>
          refine ih (applyOp s .getHist) spec ?_ ?_ ?_
          · simp only [applyOp, List.length_append, List.length_cons, List.length_nil]
            exact Nat.lt_succ_of_lt h1
          · intro a ha
            simp only [applyOp, List.mem_append, List.mem_singleton] at ha
            simp only [applyOp, List.length_append, List.length_cons, List.length_nil]
            rcases ha with ha | ha
            · have h := h2 a ha
              exact ⟨Nat.lt_succ_of_lt h.1, h.2⟩
            · subst ha
              exact ⟨Nat.lt_succ_self _, fun h => Nat.lt_irrefl _ (h ▸ h1)⟩
          · simp only [applyOp]
            rw [readCell_append_left s.cells _ s.histRef h1, h3]
      | mutate i v =>
          cases hn : nthNat s.returned i with
          | none =>
              have happ : applyOp s (.mutate i v) = s := by simp [applyOp, hn]
              rw [happ]
              exact ih s spec h1 h2 h3
          | some a =>
              have hmem := h2 a (nthNat_mem s.returned i a hn)
              have happ : applyOp s (.mutate i v)
                  = { s with cells := writeCell s.cells a v } := by simp [applyOp, hn]
              rw [happ]
              refine ih _ spec ?_ ?_ ?_
              · simpa [writeCell_length] using h1
              · intro b hb
                have h := h2 b hb
                simpa [writeCell_length] using h
              · simp only
                rw [readCell_writeCell_other s.cells a s.histRef v
                  (fun h => hmem.2 h.symm), h3]

/-- C10: with getHistory modeled as allocating a fresh array holding a
copy of the internal history, for every sequence of operations —
result pushes by executePhase/executePhaseStream, full resets by
clearHistory, getHistory calls, and arbitrary caller mutations of any
previously returned array — the runner's internal history, and the
contents a final getHistory returns, equal exactly the fold of the
pushes and clears: caller mutations of returned arrays never leak back
into the runner. -/
theorem c10_history_copy (ops : List Op) :
    readCell (runOps ops).cells (runOps ops).histRef = histSpec ops
    ∧ readCell (applyOp (runOps ops) .getHist).cells ((runOps ops).cells.length)
        = histSpec ops := by
  have h := runOps_inv ops initRunState []
    (by simp [initRunState]) (by simp [initRunState]) rfl
  constructor
  · show readCell (List.foldl applyOp initRunState ops).cells
        (List.foldl applyOp initRunState ops).histRef = histSpecFrom [] ops
    exact h.2.2
  · show readCell (applyOp (List.foldl applyOp initRunState ops) .getHist).cells
        ((List.foldl applyOp initRunState ops).cells.length) = histSpecFrom [] ops
    simp only [applyOp]
    rw [readCell_append_self, h.2.2]
